import Mathlib

/-!
Verification development for the repository health-snapshot engine
(`src/analysis/dependency_analysis.py`, `src/analysis/git_analysis.py`,
`src/analysis/snapshot.py`).

The Python code is shallowly embedded:
* Python `str` values are modelled as `List Char` (a Python string is a
  sequence of code points); `Char` comparison mirrors Python's code-point
  comparison.  Lean `String` functions are avoided because they do not
  reduce in the kernel; list-level operations are used throughout.
* Python `set` is modelled as a list with membership-guarded insertion
  (so each value appears once); `dict` is modelled as an association
  list in key-insertion order, matching CPython's ordered dictionaries.
* Python floats arising from true division are modelled as `ℚ`
  (all divisions in this code are of small non-negative integers).
* Recursive DFS is embedded with an explicit fuel argument;
  `|graph| + 1` fuel is always sufficient because each recursive step
  either terminates or strictly extends the duplicate-free path.
-/

/-- Python `str`, as a sequence of code points. -/
abbrev Str := List Char

/-- Convenience literal conversion for concrete test inputs. -/
def strL (s : String) : Str := s.data

/-- Python string `<` (lexicographic by code point). -/
def strLt : Str → Str → Bool
  | [], [] => false
  | [], _ :: _ => true
  | _ :: _, [] => false
  | a :: as, b :: bs => if a < b then true else if b < a then false else strLt as bs

theorem strLt_trichotomy (a b : Str) :
    strLt a b = true ∨ a = b ∨ strLt b a = true := by
  induction a generalizing b with
  | nil => cases b with
    | nil => exact Or.inr (Or.inl rfl)
    | cons y ys => exact Or.inl rfl
  | cons x xs ih =>
    cases b with
    | nil => exact Or.inr (Or.inr rfl)
    | cons y ys =>
      rcases lt_trichotomy x y with hxy | hxy | hxy
      · exact Or.inl (by simp [strLt, hxy, asymm hxy])
      · subst hxy
        rcases ih ys with h | h | h
        · exact Or.inl (by simp [strLt, h])
        · exact Or.inr (Or.inl (by rw [h]))
        · exact Or.inr (Or.inr (by simp [strLt, h]))
      · exact Or.inr (Or.inr (by simp [strLt, hxy, asymm hxy]))

theorem strLt_irrefl (a : Str) : strLt a a = false := by
  induction a with
  | nil => rfl
  | cons x xs ih => simp [strLt, ih]

theorem strLt_trans {a b c : Str} (hab : strLt a b = true) (hbc : strLt b c = true) :
    strLt a c = true := by
  induction a generalizing b c with
  | nil =>
    cases b with
    | nil => simp [strLt] at hab
    | cons y ys =>
      cases c with
      | nil => simp [strLt] at hbc
      | cons z zs => rfl
  | cons x xs ih =>
    cases b with
    | nil => simp [strLt] at hab
    | cons y ys =>
      cases c with
      | nil => simp [strLt] at hbc
      | cons z zs =>
        simp only [strLt] at hab hbc ⊢
        by_cases hxy : x < y
        · by_cases hyz : y < z
          · simp [lt_trans hxy hyz, asymm (lt_trans hxy hyz)]
          · by_cases hzy : z < y
            · simp [hyz, hzy] at hbc
            · have hyz' : y = z := le_antisymm (not_lt.mp hzy) (not_lt.mp hyz)
              subst hyz'
              simp [hxy, asymm hxy]
        · by_cases hyx : y < x
          · simp [hxy, hyx] at hab
          · have hxy' : x = y := le_antisymm (not_lt.mp hyx) (not_lt.mp hxy)
            subst hxy'
            simp only [lt_irrefl, if_false, if_neg, not_false_iff] at hab
            by_cases hyz : x < z
            · simp [hyz, asymm hyz]
            · by_cases hzy : z < x
              · simp [hyz, hzy] at hbc
              · have hyz' : x = z := le_antisymm (not_lt.mp hzy) (not_lt.mp hyz)
                subst hyz'
                simp only [lt_irrefl, if_false, if_neg, not_false_iff] at hbc ⊢
                exact ih hab hbc

theorem strLt_asymm {a b : Str} (hab : strLt a b = true) : strLt b a = false := by
  by_contra h
  have hba : strLt b a = true := by
    cases hb : strLt b a with
    | false => exact absurd hb h
    | true => rfl
  have := strLt_trans hab hba
  rw [strLt_irrefl] at this
  exact Bool.false_ne_true this

/-- Python `min(iterable)` for strings: the running minimum is replaced
only by a strictly smaller element (`if x < m: m = x`).  `min` of an
empty sequence raises in Python; the `[]` case is junk. -/
def pyMin (l : List Str) : Str :=
  match l with
  | [] => []
  | x :: xs => xs.foldl (fun cur y => if strLt y cur then y else cur) x

theorem pyMin_aux_mem (xs : List Str) (a : Str) :
    xs.foldl (fun cur y => if strLt y cur then y else cur) a ∈ a :: xs := by
  induction xs generalizing a with
  | nil => simp
  | cons y ys ih =>
    simp only [List.foldl_cons]
    by_cases h : strLt y a
    · simp only [h, if_pos]
      rcases List.mem_cons.mp (ih y) with h' | h'
      · simp [h']
      · simp [List.mem_cons, h']
    · simp only [h, Bool.false_eq_true, if_neg, not_false_iff]
      rcases List.mem_cons.mp (ih a) with h' | h'
      · simp [h']
      · simp [List.mem_cons, h']

theorem pyMin_mem {l : List Str} (h : l ≠ []) : pyMin l ∈ l := by
  cases l with
  | nil => exact absurd rfl h
  | cons x xs => exact pyMin_aux_mem xs x

/-- Non-strict order derived from `strLt` (`a ≤ b` iff `¬ (b < a)`). -/
def strLe (a b : Str) : Prop := strLt b a = false

theorem strLe_refl (a : Str) : strLe a a := strLt_irrefl a

theorem strLe_of_strLt {a b : Str} (h : strLt a b = true) : strLe a b :=
  strLt_asymm h

theorem strLe_trans {a b c : Str} (hab : strLe a b) (hbc : strLe b c) :
    strLe a c := by
  unfold strLe at *
  cases hc : strLt c a with
  | false => rfl
  | true =>
    exfalso
    rcases strLt_trichotomy a b with h | h | h
    · have := strLt_trans hc h
      rw [hbc] at this
      exact Bool.false_ne_true this
    · subst h
      rw [hbc] at hc
      exact Bool.false_ne_true hc
    · rw [hab] at h
      exact Bool.false_ne_true h

theorem strLe_antisymm {a b : Str} (hab : strLe a b) (hba : strLe b a) : a = b := by
  rcases strLt_trichotomy a b with h | h | h
  · rw [hba] at h; exact absurd h Bool.false_ne_true
  · exact h
  · rw [hab] at h; exact absurd h Bool.false_ne_true

theorem pyMin_aux_le (xs : List Str) (a : Str) :
    ∀ y ∈ a :: xs,
      strLe (xs.foldl (fun cur z => if strLt z cur then z else cur) a) y := by
  induction xs generalizing a with
  | nil =>
    intro y hy
    simp only [List.mem_singleton] at hy
    exact hy ▸ strLe_refl a
  | cons z zs ih =>
    intro y hy
    simp only [List.foldl_cons]
    rcases List.mem_cons.mp hy with h' | h'
    · rw [h']
      by_cases h : strLt z a
      · simp only [h, if_pos]
        exact strLe_trans (ih z z (List.mem_cons_self z zs)) (strLe_of_strLt h)
      · have hf : strLt z a = false := by simpa using h
        simp only [hf, Bool.false_eq_true, if_neg, not_false_iff]
        exact ih a a (List.mem_cons_self a zs)
    · rcases List.mem_cons.mp h' with h'' | h''
      · rw [h'']
        by_cases h : strLt z a
        · simp only [h, if_pos]
          exact ih z z (List.mem_cons_self z zs)
        · have hf : strLt z a = false := by simpa using h
          simp only [hf, Bool.false_eq_true, if_neg, not_false_iff]
          exact strLe_trans (ih a a (List.mem_cons_self a zs)) hf
      · by_cases h : strLt z a
        · simp only [h, if_pos]
          exact ih z y (List.mem_cons.mpr (Or.inr h''))
        · have hf : strLt z a = false := by simpa using h
          simp only [hf, Bool.false_eq_true, if_neg, not_false_iff]
          exact ih a y (List.mem_cons.mpr (Or.inr h''))

theorem pyMin_le {l : List Str} : ∀ y ∈ l, strLe (pyMin l) y := by
  cases l with
  | nil => intro y hy; exact absurd hy (List.not_mem_nil y)
  | cons x xs => exact pyMin_aux_le xs x

/-- The minimum of a nonempty list is determined by membership plus
the lower-bound property. -/
theorem pyMin_eq_of {l : List Str} {m : Str} (hm : m ∈ l)
    (hle : ∀ y ∈ l, strLe m y) : m = pyMin l :=
  strLe_antisymm (hle _ (pyMin_mem (List.ne_nil_of_mem hm))) (pyMin_le m hm)

/-- `pyMin` is invariant under permutation of a nonempty list. -/
theorem pyMin_perm {l l' : List Str} (h : l.Perm l') (hne : l ≠ []) :
    pyMin l = pyMin l' := by
  have hne' : l' ≠ [] := fun hl' => hne (List.Perm.eq_nil (hl' ▸ h))
  refine strLe_antisymm ?_ ?_
  · exact pyMin_le _ ((h.mem_iff).mpr (pyMin_mem hne'))
  · exact pyMin_le _ ((h.mem_iff).mp (pyMin_mem hne))

/-! ### Generic association-list helpers (Python `dict` in insertion order) -/

/-- `d.get(k)` on an association list. -/
def lookupA {α : Type} (l : List (Str × α)) (k : Str) : Option α :=
  (l.find? (fun e => decide (e.1 = k))).map (·.2)

/-- `d[k] = v`: overwrite in place, or append at the end (CPython keeps
first-insertion order on overwrite). -/
def setA {α : Type} (l : List (Str × α)) (k : Str) (v : α) : List (Str × α) :=
  if (l.find? (fun e => decide (e.1 = k))).isSome then
    l.map (fun e => if e.1 = k then (k, v) else e)
  else l ++ [(k, v)]

/-- `list(d.keys())`. -/
def keysA {α : Type} (l : List (Str × α)) : List Str := l.map (·.1)

/-- `s.add(x)` for a Python `set` modelled as a duplicate-free list. -/
def setAdd (l : List Str) (x : Str) : List Str := if x ∈ l then l else l ++ [x]

/-- Boolean infix test on code-point lists (Python `pat in s`). -/
def listIsInfix (pat s : Str) : Bool :=
  match s with
  | [] => pat.isEmpty
  | _ :: rest => pat.isPrefixOf s || listIsInfix pat rest

/-! ### `ModuleInfo` (dependency_analysis.py lines 21-59) -/

/-- A module node: the Python sets `imports` / `imported_by` are modelled
as duplicate-free lists. -/
structure ModuleInfo where
  path : Str
  imports : List Str := []
  imported_by : List Str := []
deriving DecidableEq

/-- `fan_out`: number of modules this depends on. -/
def ModuleInfo.fan_out (m : ModuleInfo) : ℕ := m.imports.length

/-- `fan_in`: number of modules that depend on this. -/
def ModuleInfo.fan_in (m : ModuleInfo) : ℕ := m.imported_by.length

/-- `instability = fan_out / (fan_in + fan_out)`, `0.0` when the total is
zero.  Python float division on these small naturals is modelled in `ℚ`. -/
def ModuleInfo.instability (m : ModuleInfo) : ℚ :=
  let total := m.fan_in + m.fan_out
  if total = 0 then 0 else (m.fan_out : ℚ) / (total : ℚ)

/-! ### Path resolution and graph construction
(dependency_analysis.py lines 62-202)

The regex-based import extraction (`extract_imports_typescript`) is
heuristic text scanning; its list of matched import specifiers per file is
supplied as the function parameter `rawImports`, and the retained logic —
keep only specifiers starting with `"."`, resolve each against the
filesystem, collect into a set — is embedded below.  The filesystem is a
list `fs` of existing repo-relative POSIX file paths; `.gitignore`
matching (the external `pathspec` library) is the predicate parameter
`gitignore`. -/

/-- Split a POSIX path into segments at `'/'`. -/
def splitOnSlash : Str → List Str
  | [] => [[]]
  | x :: xs =>
    match splitOnSlash xs with
    | [] => [[x]]
    | h :: t => if x = '/' then [] :: h :: t else (x :: h) :: t

/-- Join path segments with `'/'`. -/
def joinSegs (segs : List Str) : Str := List.intercalate ['/'] segs

/-- `pathlib` `.resolve()` segment normalisation: drop `"."` and empty
segments, let `".."` consume the previous segment (clamped at the root). -/
def normalizeSegs (segs : List Str) : List Str :=
  segs.foldl (fun acc seg =>
    if seg = strL "." ∨ seg = [] then acc
    else if seg = strL ".." then acc.dropLast
    else acc ++ [seg]) []

/-- `Path.with_suffix` on a file *name*: replace the part from the last
dot (a leading dot alone marks a hidden file and is not a suffix). -/
def withSuffixName (name : Str) (suf : Str) : Str :=
  match name.reverse.dropWhile (fun c => !(c = '.')) with
  | [] => name ++ suf
  | _ :: [] => name ++ suf
  | _ :: stemRev => stemRev.reverse ++ suf

/-- `Path.with_suffix` on a path. -/
def withSuffix (p : Str) (suf : Str) : Str :=
  let segs := splitOnSlash p
  joinSegs (segs.dropLast ++ [withSuffixName (segs.getLastD []) suf])

/-- `resolve_import_path`: resolve a relative import against the fixed
candidate list (exact, `.ts`/`.tsx`/`.js` suffix, directory index files);
the first candidate that exists in `fs` wins, `none` otherwise. -/
def resolve_import_path (fs : List Str) (from_file import_path : Str) : Option Str :=
  let resolved := joinSegs (normalizeSegs ((splitOnSlash from_file).dropLast ++ splitOnSlash import_path))
  let candidates := [
    resolved,
    withSuffix resolved (strL ".ts"),
    withSuffix resolved (strL ".tsx"),
    withSuffix resolved (strL ".js"),
    resolved ++ strL "/index.ts",
    resolved ++ strL "/index.tsx",
    resolved ++ strL "/index.js"]
  candidates.find? (fun c => decide (c ∈ fs))

/-- `should_analyze_file`: skip well-known non-source directories,
gitignored paths, and test/mock files. -/
def should_analyze_file (gitignore : Str → Bool) (relPath : Str) : Bool :=
  let parts := splitOnSlash relPath
  let skipDirs := [strL "node_modules", strL "dist", strL "out", strL ".venv",
    strL "__pycache__", strL ".git", strL ".vscode-test"]
  if parts.any (fun part => decide (part ∈ skipDirs)) then false
  else if gitignore relPath then false
  else if [strL "/test/", strL "/mocks/", strL ".test.", strL ".spec."].any
      (fun pat => listIsInfix pat relPath) then false
  else true

/-- `extract_imports_typescript` minus the regex scan: keep relative
specifiers, resolve them, and collect the successes into a set. -/
def extract_imports (fs : List Str) (rawImports : Str → List Str) (filepath : Str) : List Str :=
  (rawImports filepath).foldl (fun acc spec =>
    if (strL ".").isPrefixOf spec then
      match resolve_import_path fs filepath spec with
      | some r => setAdd acc r
      | none => acc
    else acc) []

/-- `build_dependency_graph`, first pass: the analyzed files (grouped by
extension, as `rglob` is run per extension) each mapped to their
resolved import set; the reverse (`imported_by`) pass is
`imported_by_of` below. -/
def build_dependency_graph (fs : List Str) (gitignore : Str → Bool)
    (rawImports : Str → List Str) : List (Str × List Str) :=
  let exts := [strL ".ts", strL ".tsx", strL ".js", strL ".jsx"]
  let sourceFiles := exts.foldl (fun acc ext =>
    acc ++ fs.filter (fun f => ext.isSuffixOf f && should_analyze_file gitignore f)) []
  sourceFiles.foldl (fun acc f => setA acc f (extract_imports fs rawImports f)) []

/-- Second pass of `build_dependency_graph`: `imported_by` of a node is
every module whose import set contains it (the source guards with
`if imported_path in modules`, so only graph keys ever receive entries). -/
def imported_by_of (g : List (Str × List Str)) (p : Str) : List Str :=
  (g.filter (fun e => decide (p ∈ e.2))).map (·.1)

/-- The `ModuleInfo` record of a graph node after both passes. -/
def graphModule (g : List (Str × List Str)) (p : Str) : ModuleInfo :=
  { path := p
    imports := (lookupA g p).getD []
    imported_by := if p ∈ keysA g then imported_by_of g p else [] }

/-! ### Cycle detection (dependency_analysis.py lines 205-241) -/

/-- Python `list.index(a)`: position of the first occurrence (raises when
absent; the result is junk there). -/
def pyIndex (a : Str) : List Str → ℕ
  | [] => 0
  | x :: xs => if x = a then 0 else pyIndex a xs + 1

theorem pyIndex_lt_length {a : Str} {l : List Str} (h : a ∈ l) :
    pyIndex a l < l.length := by
  induction l with
  | nil => exact absurd h (List.not_mem_nil a)
  | cons x xs ih =>
    by_cases hx : x = a
    · simp [pyIndex, hx]
    · have : a ∈ xs := by
        rcases List.mem_cons.mp h with h' | h'
        · exact absurd h'.symm hx
        · exact h'
      simp only [pyIndex, hx, if_neg, not_false_iff, List.length_cons]
      exact Nat.succ_lt_succ (ih this)

theorem pyIndex_append_of_mem {a : Str} {l₁ : List Str} (l₂ : List Str)
    (h : a ∈ l₁) : pyIndex a (l₁ ++ l₂) = pyIndex a l₁ := by
  induction l₁ with
  | nil => exact absurd h (List.not_mem_nil a)
  | cons x xs ih =>
    by_cases hx : x = a
    · simp [pyIndex, hx]
    · have : a ∈ xs := by
        rcases List.mem_cons.mp h with h' | h'
        · exact absurd h'.symm hx
        · exact h'
      simp [pyIndex, hx, ih this]

theorem getElem?_pyIndex {a : Str} {l : List Str} (h : a ∈ l) :
    l[pyIndex a l]? = some a := by
  induction l with
  | nil => exact absurd h (List.not_mem_nil a)
  | cons x xs ih =>
    by_cases hx : x = a
    · simp [pyIndex, hx]
    · have hmem : a ∈ xs := by
        rcases List.mem_cons.mp h with h' | h'
        · exact absurd h'.symm hx
        · exact h'
      simp only [pyIndex, hx, if_neg, not_false_iff]
      simpa using ih hmem

/-- The in-`dfs` cycle normalisation (lines 216-218): rotate the closed
chain `cycle` (whose last element repeats its first) so that the
lexicographically smallest member starts — and also closes — it:
`cycle[min_idx:-1] + cycle[:min_idx] + [cycle[min_idx]]`. -/
def normalizeCycle (cycle : List Str) : List Str :=
  let minIdx := pyIndex (pyMin cycle.dropLast) cycle
  (cycle.drop minIdx).dropLast ++ cycle.take minIdx ++ [cycle.getD minIdx []]

/-- `if normalized not in cycles: cycles.append(normalized)` (line 219). -/
def addCycleIfNew (cycles : List (List Str)) (normalized : List Str) : List (List Str) :=
  if normalized ∈ cycles then cycles else cycles ++ [normalized]

/-- State threaded through the DFS: discovered cycles plus the global
`visited` set.  The `rec_stack` set always equals the set of nodes on the
current `path`, so it is represented by `path` itself. -/
structure CycState where
  cycles : List (List Str)
  visited : List Str
deriving DecidableEq

/-- The recursive `dfs` of `find_circular_dependencies`, with fuel for
termination.  A node already on the path is a back-edge: the path suffix
from its first occurrence, closed with the node, is normalised and
recorded.  Fuel `|graph| + 1` always suffices, because the path grows by
one fresh node per level and only holds graph keys. -/
def dfsCyc (g : List (Str × List Str)) : ℕ → Str → List Str → CycState → CycState
  | 0, _, _, st => st
  | fuel + 1, node, path, st =>
    if node ∈ path then
      let cycleStart := pyIndex node path
      let cycle := path.drop cycleStart ++ [node]
      { st with cycles := addCycleIfNew st.cycles (normalizeCycle cycle) }
    else if node ∈ st.visited then st
    else
      let st1 : CycState := { st with visited := st.visited ++ [node] }
      match lookupA g node with
      | none => st1
      | some imps =>
        imps.foldl (fun acc imported =>
          if imported ∈ keysA g then dfsCyc g fuel imported (path ++ [node]) acc
          else acc) st1

/-- `find_circular_dependencies`: run the DFS from every not-yet-visited
node, in dictionary (insertion) order. -/
def find_circular_dependencies (g : List (Str × List Str)) : List (List Str) :=
  ((keysA g).foldl (fun st p =>
    if p ∈ st.visited then st else dfsCyc g (g.length + 1) p [] st)
    { cycles := [], visited := [] }).cycles

/-! ### Membership lemmas for the association-list fold -/

theorem mem_setA {α : Type} {l : List (Str × α)} {k : Str} {v : α} {e : Str × α}
    (h : e ∈ setA l k v) : e ∈ l ∨ e = (k, v) := by
  unfold setA at h
  by_cases hf : (l.find? (fun x => decide (x.1 = k))).isSome
  · simp only [hf, if_pos] at h
    rcases List.mem_map.mp h with ⟨e', he', heq⟩
    by_cases hk : e'.1 = k
    · right; rw [← heq]; simp [hk]
    · left; rw [← heq]; simpa [hk] using he'
  · simp only [hf, if_neg, Bool.false_eq_true, not_false_iff] at h
    rcases List.mem_append.mp h with h' | h'
    · exact Or.inl h'
    · exact Or.inr (List.mem_singleton.mp h')

theorem resolve_import_path_mem_fs {fs : List Str} {from_file import_path r : Str}
    (h : resolve_import_path fs from_file import_path = some r) : r ∈ fs := by
  unfold resolve_import_path at h
  have := List.find?_some h
  exact of_decide_eq_true this

theorem extract_imports_subset_fs (fs : List Str) (rawImports : Str → List Str)
    (f : Str) : ∀ q ∈ extract_imports fs rawImports f, q ∈ fs := by
  unfold extract_imports
  generalize rawImports f = specs
  have aux : ∀ (specs : List Str) (acc : List Str), (∀ q ∈ acc, q ∈ fs) →
      ∀ q ∈ specs.foldl (fun acc spec =>
        if (strL ".").isPrefixOf spec then
          match resolve_import_path fs f spec with
          | some r => setAdd acc r
          | none => acc
        else acc) acc, q ∈ fs := by
    intro specs
    induction specs with
    | nil => intro acc hacc q hq; exact hacc q hq
    | cons s ss ih =>
      intro acc hacc q hq
      simp only [List.foldl_cons] at hq
      refine ih _ ?_ q hq
      by_cases hp : (strL ".").isPrefixOf s
      · simp only [hp, if_pos]
        cases hr : resolve_import_path fs f s with
        | none => simpa [hr] using hacc
        | some r =>
          simp only [hr]
          intro q' hq'
          unfold setAdd at hq'
          by_cases hmem : r ∈ acc
          · exact hacc q' (by simpa [hmem] using hq')
          · simp only [hmem, if_neg, Bool.false_eq_true, not_false_iff] at hq'
            rcases List.mem_append.mp hq' with h' | h'
            · exact hacc q' h'
            · exact (List.mem_singleton.mp h') ▸ resolve_import_path_mem_fs hr
      · simpa [hp] using hacc
  exact aux specs [] (by intro q hq; exact absurd hq (List.not_mem_nil q))

/-- C1 (amended): every import edge stored in the graph points to an
existing file of the repository (unresolved and external references are
dropped), and every reverse edge (`imported_by`) references a key of the
graph.  The original claim — that import targets are always themselves
keys of the graph — fails: see the counterexample below. -/
theorem imports_reference_existing_files (fs : List Str) (gitignore : Str → Bool)
    (rawImports : Str → List Str) :
    (∀ e ∈ build_dependency_graph fs gitignore rawImports, ∀ q ∈ e.2, q ∈ fs) ∧
    (∀ p : Str, ∀ m ∈ (graphModule (build_dependency_graph fs gitignore rawImports) p).imported_by,
      m ∈ keysA (build_dependency_graph fs gitignore rawImports)) := by
  constructor
  · unfold build_dependency_graph
    have aux : ∀ (files : List Str) (acc : List (Str × List Str)),
        (∀ e ∈ acc, ∀ q ∈ e.2, q ∈ fs) →
        ∀ e ∈ files.foldl (fun acc f => setA acc f (extract_imports fs rawImports f)) acc,
          ∀ q ∈ e.2, q ∈ fs := by
      intro files
      induction files with
      | nil => intro acc hacc e he; exact hacc e he
      | cons f fsrest ih =>
        intro acc hacc e he
        simp only [List.foldl_cons] at he
        refine ih _ ?_ e he
        intro e' he' q hq
        rcases mem_setA he' with h' | h'
        · exact hacc e' h' q hq
        · subst h'
          exact extract_imports_subset_fs fs rawImports f q hq
    exact aux _ [] (by intro e he; exact absurd he (List.not_mem_nil e))
  · intro p m hm
    unfold graphModule at hm
    by_cases hp : p ∈ keysA (build_dependency_graph fs gitignore rawImports)
    · simp only [hp, if_pos] at hm
      unfold imported_by_of at hm
      rcases List.mem_map.mp hm with ⟨e, he, heq⟩
      exact heq ▸ List.mem_map.mpr ⟨e, List.mem_of_mem_filter he, rfl⟩
    · simp only [hp, if_neg, not_false_iff] at hm
      exact absurd hm (List.not_mem_nil m)

/-- The two-file repository exhibiting the failure of the stated C1
invariant: `a.ts` imports `./b.test.js`, which exists on disk but is
excluded from the analyzed set by the `.test.` filter. -/
def phantomFs : List Str := [strL "a.ts", strL "b.test.js"]

/-- Import specifiers extracted per file in the counterexample repo. -/
def phantomRawImports : Str → List Str :=
  fun f => if f = strL "a.ts" then [strL "./b.test.js"] else []

/-- C1 (counterexample): in the `phantomFs` repository the graph has the
single key `a.ts` whose import set contains `b.test.js`, yet `b.test.js`
is not a key of the graph — an edge to a node outside the analyzed set. -/
theorem imports_can_leave_analyzed_set :
    strL "b.test.js" ∈
        (lookupA (build_dependency_graph phantomFs (fun _ => false) phantomRawImports)
          (strL "a.ts")).getD [] ∧
      strL "b.test.js" ∉
        keysA (build_dependency_graph phantomFs (fun _ => false) phantomRawImports) := by
  constructor
  · decide
  · decide

/-- C1 (witness): the amended theorem applied in the counterexample
repository, discharging both membership hypotheses concretely. -/
theorem imports_reference_existing_files_witness :
    strL "b.test.js" ∈ phantomFs :=
  (imports_reference_existing_files phantomFs (fun _ => false) phantomRawImports).1
    (strL "a.ts", [strL "b.test.js"]) (by decide) (strL "b.test.js") (by decide)

/-- C5: for every module, `instability = fan_out / (fan_in + fan_out)`
lies in `[0, 1]`, and equals `0` when both fan counts are zero. -/
theorem instability_unit_interval (m : ModuleInfo) :
    0 ≤ m.instability ∧ m.instability ≤ 1 ∧
      (m.fan_in = 0 ∧ m.fan_out = 0 → m.instability = 0) := by
  unfold ModuleInfo.instability
  by_cases h : m.fan_in + m.fan_out = 0
  · simp [h]
  · refine ⟨?_, ?_, ?_⟩
    · simp only [h, if_neg, not_false_iff]
      positivity
    · simp only [h, if_neg, not_false_iff]
      rw [div_le_one (by positivity)]
      exact_mod_cast Nat.le_add_left m.fan_out m.fan_in
    · rintro ⟨h1, h2⟩
      exact absurd (by rw [h1, h2]) h

/-- C5 (witness): the theorem applied to an isolated module, where the
zero-fan clause fires. -/
theorem instability_unit_interval_witness :
    ModuleInfo.instability ⟨strL "a.ts", [], []⟩ = 0 :=
  (instability_unit_interval ⟨strL "a.ts", [], []⟩).2.2 ⟨rfl, rfl⟩

/-- The graph with exactly the modules `A` and `B` and edges `A→B`,
`B→A` (claim C4's scenario). -/
def twoCycleGraph : List (Str × List Str) :=
  [(strL "A", [strL "B"]), (strL "B", [strL "A"])]

/-- C4 (counterexample): the reported sequence for the two-module cycle
is the *closed* chain `["A", "B", "A"]` — the normalisation appends the
starting module again (`... + [cycle[min_idx]]`) — so the output is not
`[["A", "B"]]` as the claim states. -/
theorem two_cycle_not_reported_as_open_pair :
    find_circular_dependencies twoCycleGraph ≠ [[strL "A", strL "B"]] := by
  decide

/-- C4 (amended): on the A⇄B graph exactly one cycle is reported, namely
the closed chain `[A, B, A]` (the 2-cycle through A and B, rotated to
start at the lexicographically smallest member and closed by repeating
it), and both modules have instability 1/2. -/
theorem two_cycle_closed_chain_and_instability_half :
    find_circular_dependencies twoCycleGraph = [[strL "A", strL "B", strL "A"]] ∧
      ModuleInfo.instability (graphModule twoCycleGraph (strL "A")) = 1/2 ∧
      ModuleInfo.instability (graphModule twoCycleGraph (strL "B")) = 1/2 := by
  refine ⟨by decide, ?_, ?_⟩
  · have h1 : (graphModule twoCycleGraph (strL "A")).fan_in = 1 := by decide
    have h2 : (graphModule twoCycleGraph (strL "A")).fan_out = 1 := by decide
    simp only [ModuleInfo.instability, h1, h2]
    norm_num
  · have h1 : (graphModule twoCycleGraph (strL "B")).fan_in = 1 := by decide
    have h2 : (graphModule twoCycleGraph (strL "B")).fan_out = 1 := by decide
    simp only [ModuleInfo.instability, h1, h2]
    norm_num

/-! ### C3: rotation invariance of cycle normalisation -/

/-- Close an open cycle by repeating its first element: this is the shape
of the `cycle` list handed to the normalisation inside `dfs`
(`path[cycle_start:] + [node]` starts and ends with the back-edge
target).  Entering the DFS at a different member of the same cycle hands
the normalisation a rotation of this list. -/
def closedOf (l : List Str) : List Str := l ++ l.take 1

/-- The normalisation of a closed cycle rotates its open part to start at
the minimum and re-closes it with that minimum. -/
theorem normalizeCycle_closedOf (l : List Str) (hne : l ≠ []) :
    normalizeCycle (closedOf l) =
      l.rotate (pyIndex (pyMin l) l) ++ [pyMin l] := by
  obtain ⟨x, xs, rfl⟩ := List.exists_cons_of_ne_nil hne
  have hmem : pyMin (x :: xs) ∈ x :: xs := pyMin_mem (by simp)
  have hclosed : closedOf (x :: xs) = (x :: xs) ++ [x] := rfl
  rw [hclosed]
  simp only [normalizeCycle, List.dropLast_concat]
  rw [pyIndex_append_of_mem [x] hmem]
  have hi : pyIndex (pyMin (x :: xs)) (x :: xs) < (x :: xs).length :=
    pyIndex_lt_length hmem
  have hile : pyIndex (pyMin (x :: xs)) (x :: xs) ≤ (x :: xs).length := le_of_lt hi
  rw [List.drop_append_of_le_length hile, List.dropLast_concat,
    List.take_append_of_le_length hile,
    List.getD_eq_getElem?_getD, List.getElem?_append_left hi, getElem?_pyIndex hmem,
    Option.getD_some, List.rotate_eq_drop_append_take hile, List.append_assoc]

/-- For a duplicate-free cycle, rotating to the minimum lands on the same
list no matter which rotation one starts from. -/
theorem rotate_pyIndex_min (l : List Str) (hne : l ≠ []) (hnd : l.Nodup) (k : ℕ) :
    (l.rotate k).rotate (pyIndex (pyMin l) (l.rotate k)) =
      l.rotate (pyIndex (pyMin l) l) := by
  have hnpos : 0 < l.length := List.length_pos.mpr hne
  have hmem : pyMin l ∈ l := pyMin_mem hne
  have hmemr : pyMin l ∈ l.rotate k := List.mem_rotate.mpr hmem
  have hi₁ : pyIndex (pyMin l) l < l.length := pyIndex_lt_length hmem
  have hi₂ : pyIndex (pyMin l) (l.rotate k) < (l.rotate k).length := pyIndex_lt_length hmemr
  rw [List.rotate_rotate, Nat.add_comm k (pyIndex (pyMin l) (l.rotate k)),
    ← List.rotate_mod l (pyIndex (pyMin l) (l.rotate k) + k)]
  have hj : (pyIndex (pyMin l) (l.rotate k) + k) % l.length < l.length := Nat.mod_lt _ hnpos
  have h1 : l[(pyIndex (pyMin l) (l.rotate k) + k) % l.length]? = some (pyMin l) := by
    rw [← List.getElem?_rotate (show pyIndex (pyMin l) (l.rotate k) < l.length by
      rw [← List.length_rotate l k]; exact hi₂)]
    exact getElem?_pyIndex hmemr
  have h2 : l[pyIndex (pyMin l) l]? = some (pyMin l) := getElem?_pyIndex hmem
  have hij : (pyIndex (pyMin l) (l.rotate k) + k) % l.length = pyIndex (pyMin l) l :=
    List.getElem?_inj hj hnd (h1.trans h2.symm)
  rw [hij]

theorem foldl_addCycleIfNew_nodup (ds : List (List Str)) :
    ∀ acc : List (List Str), acc.Nodup → (ds.foldl addCycleIfNew acc).Nodup := by
  induction ds with
  | nil => intro acc hacc; exact hacc
  | cons d rest ih =>
    intro acc hacc
    simp only [List.foldl_cons]
    refine ih _ ?_
    unfold addCycleIfNew
    by_cases hd : d ∈ acc
    · simpa [hd] using hacc
    · simp only [hd, if_neg, not_false_iff]
      rw [List.nodup_append]
      exact ⟨hacc, List.nodup_singleton d, by simpa [List.disjoint_singleton] using hd⟩

/-- C3: cycle normalisation is rotation-invariant — discovering a
directed import cycle (a duplicate-free sequence of modules, closed by
the DFS with a repeat of its entry point) from any member, i.e. from any
rotation of the closed chain, normalises to the same canonical sequence;
and the `if normalized not in cycles` accumulation never records the same
normalised form twice. -/
theorem cycle_normalization_rotation_invariant (c : List Str) (hne : c ≠ [])
    (hnd : c.Nodup) (k : ℕ) :
    normalizeCycle (closedOf (c.rotate k)) = normalizeCycle (closedOf c) ∧
      ∀ discovered : List (List Str), (discovered.foldl addCycleIfNew []).Nodup := by
  constructor
  · have hner : c.rotate k ≠ [] := by
      intro h0
      have hl := List.length_rotate c k
      rw [h0] at hl
      exact hne (List.length_eq_zero.mp hl.symm)
    rw [normalizeCycle_closedOf _ hner, normalizeCycle_closedOf _ hne,
      pyMin_perm (List.rotate_perm c k) hner, rotate_pyIndex_min c hne hnd k]
  · intro discovered
    exact foldl_addCycleIfNew_nodup discovered [] List.nodup_nil

/-- C3 (witness): the invariance applied to the concrete 3-cycle
`a → b → c → a` entered one step later. -/
theorem cycle_normalization_rotation_invariant_witness :
    normalizeCycle (closedOf ([strL "a", strL "b", strL "c"].rotate 1)) =
      normalizeCycle (closedOf [strL "a", strL "b", strL "c"]) :=
  (cycle_normalization_rotation_invariant [strL "a", strL "b", strL "c"]
    (by decide) (by decide) 1).1

/-! ### git history mining (git_analysis.py)

The numstat log parser works line by line.  The embedding pre-tokenizes
the raw `git log` output into `LogLine`s: commit-header lines (format
`%H|%aI|%aN`, recognized in the source by containing exactly two pipes)
carry the hash, the author, and a timestamp together with a flag telling
whether `datetime.fromisoformat` accepted it; numstat lines (recognized
by containing a tab) carry two count fields — a number, the binary-file
marker `-`, or a non-numeric token — and a file path.  Any other line is
ignored by the source loop and therefore omitted from the stream.
Timestamps are modelled as integers (comparison order is all the code
uses). -/

/-- One field of a numstat line. -/
inductive StatField
  | binaryMark
  | num (n : ℕ)
  | malformed
deriving DecidableEq

/-- One recognized line of `git log --numstat` output. -/
inductive LogLine
  | header (hash : Str) (dateValid : Bool) (date : ℤ) (author : Str)
  | stat (added removed : StatField) (filepath : Str)
deriving DecidableEq

/-- `FileStats` from git_analysis.py; `authors` is a Python set. -/
structure FileStats where
  path : Str
  change_count : ℕ := 0
  lines_added : ℕ := 0
  lines_removed : ℕ := 0
  authors : List Str := []
  last_modified : Option ℤ := none
  first_seen : Option ℤ := none
deriving DecidableEq

/-- `churn = lines_added + lines_removed`. -/
def FileStats.churn (fs : FileStats) : ℕ := fs.lines_added + fs.lines_removed

/-- `author_count = len(authors)`. -/
def FileStats.author_count (fs : FileStats) : ℕ := fs.authors.length

/-- `_should_skip_file`: substring patterns on the separator-normalised
path, test-style file names, and well-known test directories.  (The
single-character replace `"\\" → "/"` is a per-character map; the
`pathlib` name/parts are computed from the raw path, as on POSIX.) -/
def _should_skip_file (filepath : Str) : Bool :=
  let normalized := filepath.map (fun c => if c = '\\' then '/' else c)
  let skipPatterns := [strL "node_modules/", strL "dist/", strL ".vscode-test/",
    strL "__pycache__/", strL ".git/", strL "package-lock.json", strL ".vsix",
    strL "/test/", strL "/tests/", strL "/__tests__/", strL "/mocks/"]
  if skipPatterns.any (fun pat => listIsInfix pat normalized) then true
  else
    let comps := splitOnSlash filepath
    let filename := comps.getLastD []
    if (strL "test_").isPrefixOf filename || (strL "_test.py").isSuffixOf filename ||
        (strL "_tests.py").isSuffixOf filename || listIsInfix (strL ".test.") filename ||
        listIsInfix (strL ".spec.") filename then true
    else
      let testDirs := [strL "test", strL "tests", strL "__tests__", strL "mocks"]
      if comps.dropLast.any (fun part => decide (part ∈ testDirs)) then true
      else false

/-- The filters applied to one numstat entry, in source order: binary
marker, currently-tracked check, exclusion policy, integer parse.  The
accepted added/removed counts are returned. -/
def statAccepted (tracked : List Str) (added removed : StatField) (filepath : Str) :
    Option (ℕ × ℕ) :=
  if added = .binaryMark ∨ removed = .binaryMark then none
  else if filepath ∉ tracked then none
  else if _should_skip_file filepath then none
  else match added, removed with
    | .num a, .num r => some (a, r)
    | _, _ => none

/-- Fold one accepted entry into a `FileStats` record (increment
`change_count`, accumulate line counts, union the author, track the
earliest/latest timestamps). -/
def updateStats (fs : FileStats) (la lr : ℕ) (date : ℤ) (author : Str) : FileStats :=
  { fs with
    change_count := fs.change_count + 1
    lines_added := fs.lines_added + la
    lines_removed := fs.lines_removed + lr
    authors := setAdd fs.authors author
    last_modified := some (match fs.last_modified with
      | none => date
      | some d => if date > d then date else d)
    first_seen := some (match fs.first_seen with
      | none => date
      | some d => if date < d then date else d) }

/-- Parser state: `current_commit_info` (date and author of the last
valid header) and the `file_stats` dictionary. -/
structure GitLogState where
  current : Option (ℤ × Str)
  file_stats : List (Str × FileStats)
deriving DecidableEq

/-- One iteration of the `analyze_git_log` loop: a header installs (or,
when its timestamp failed to parse, clears) `current_commit_info`; a
numstat line under a current commit that passes all filters updates the
file's statistics. -/
def processLogLine (tracked : List Str) (st : GitLogState) : LogLine → GitLogState
  | .header _ valid date author =>
    { st with current := if valid then some (date, author) else none }
  | .stat added removed filepath =>
    match st.current with
    | none => st
    | some (date, author) =>
      match statAccepted tracked added removed filepath with
      | none => st
      | some (la, lr) =>
        let old := (lookupA st.file_stats filepath).getD { path := filepath }
        { st with file_stats := setA st.file_stats filepath (updateStats old la lr date author) }

/-- `analyze_git_log` on a pre-tokenized log stream: fold the loop over
all lines, starting with no current commit and empty statistics.  (The
`git log` invocation restricts the stream to non-merge commits inside the
lookback window and commit-count limit; the stream is that output.) -/
def analyze_git_log (lines : List LogLine) (tracked : List Str) : List (Str × FileStats) :=
  (lines.foldl (processLogLine tracked) ⟨none, []⟩).file_stats

/-- The `change_count` recorded for a file (0 when the file is absent). -/
def changeCountOf (stats : List (Str × FileStats)) (f : Str) : ℕ :=
  ((lookupA stats f).map FileStats.change_count).getD 0

/-! ### Dictionary-update lemmas -/

theorem find?_map_update {α : Type} (l : List (Str × α)) (k : Str) (v : α)
    (hfind : (l.find? (fun e => decide (e.1 = k))).isSome) :
    (l.map (fun e => if e.1 = k then (k, v) else e)).find? (fun e => decide (e.1 = k)) =
      some (k, v) := by
  induction l with
  | nil => simp at hfind
  | cons e es ih =>
    by_cases he : e.1 = k
    · simp only [List.map_cons, he, if_pos]
      exact List.find?_cons_of_pos _ (by simp)
    · simp only [List.map_cons, he, if_neg, not_false_iff]
      rw [List.find?_cons_of_neg _ (by simp [he])]
      refine ih ?_
      rw [List.find?_cons_of_neg _ (by simp [he])] at hfind
      exact hfind

theorem find?_map_update_other {α : Type} (l : List (Str × α)) (k k' : Str) (v : α)
    (h : k' ≠ k) :
    (l.map (fun e => if e.1 = k then (k, v) else e)).find? (fun e => decide (e.1 = k')) =
      l.find? (fun e => decide (e.1 = k')) := by
  induction l with
  | nil => rfl
  | cons e es ih =>
    by_cases he : e.1 = k
    · simp only [List.map_cons, he, if_pos]
      rw [List.find?_cons_of_neg _ (by simp [Ne.symm h]),
        List.find?_cons_of_neg _ (by simp [he, Ne.symm h])]
      exact ih
    · simp only [List.map_cons, he, if_neg, not_false_iff]
      by_cases hk' : e.1 = k'
      · rw [List.find?_cons_of_pos _ (by simp [hk']), List.find?_cons_of_pos _ (by simp [hk'])]
      · rw [List.find?_cons_of_neg _ (by simp [hk']), List.find?_cons_of_neg _ (by simp [hk'])]
        exact ih

theorem lookupA_setA_self {α : Type} (l : List (Str × α)) (k : Str) (v : α) :
    lookupA (setA l k v) k = some v := by
  unfold lookupA setA
  by_cases hf : (l.find? (fun e => decide (e.1 = k))).isSome
  · simp only [hf, if_pos]
    rw [find?_map_update l k v hf]
    rfl
  · simp only [hf, Bool.false_eq_true, if_neg, not_false_iff]
    rw [List.find?_append]
    cases hfe : l.find? (fun e => decide (e.1 = k)) with
    | some e => rw [hfe] at hf; simp at hf
    | none => simp [List.find?_cons_of_pos]

theorem lookupA_setA_other {α : Type} (l : List (Str × α)) (k k' : Str) (v : α)
    (h : k' ≠ k) : lookupA (setA l k v) k' = lookupA l k' := by
  unfold lookupA setA
  by_cases hf : (l.find? (fun e => decide (e.1 = k))).isSome
  · simp only [hf, if_pos]
    rw [find?_map_update_other l k k' v h]
  · simp only [hf, Bool.false_eq_true, if_neg, not_false_iff]
    rw [List.find?_append]
    cases hfe : l.find? (fun e => decide (e.1 = k')) with
    | some e => rfl
    | none => simp [List.find?_cons_of_neg, Ne.symm h]

/-! ### C8: change_count counts distinct accepted commits -/

/-- Group a log stream into commit blocks, from the right: each header
collects the numstat entries that follow it (up to the next header),
tagged with its timestamp-validity flag; entries before any header are
the final pending list and belong to no commit. -/
def blocksAux : List LogLine →
    List (StatField × StatField × Str) × List (Bool × List (StatField × StatField × Str))
  | [] => ([], [])
  | line :: rest =>
    let pb := blocksAux rest
    match line with
    | .stat a r p => ((a, r, p) :: pb.1, pb.2)
    | .header _ v _ _ => ([], (v, pb.1) :: pb.2)

/-- The commit blocks of a log stream (headerless leading entries dropped). -/
def commitBlocks (lines : List LogLine) : List (Bool × List (StatField × StatField × Str)) :=
  (blocksAux lines).2

/-- Number of accepted numstat entries for file `f` in a block. -/
def touchCount (tracked : List Str) (f : Str) (stats : List (StatField × StatField × Str)) : ℕ :=
  stats.countP (fun s => decide (s.2.2 = f) && (statAccepted tracked s.1 s.2.1 s.2.2).isSome)

/-- The claim's counting, stated independently of the parser fold: the
number of commits — header lines with a valid timestamp — whose entries
include at least one accepted entry for `f` after exclusion filtering.
(Non-merge and in-window restriction is enforced by the `git log`
arguments, so the stream already contains exactly those commits.) -/
def specChangeCount (lines : List LogLine) (tracked : List Str) (f : Str) : ℕ :=
  (commitBlocks lines).countP (fun b => b.1 && decide (0 < touchCount tracked f b.2))

/-- Accepted touches of `f` along the line stream, tracking whether a
valid commit is current — the increments the parser fold performs. -/
def lineTouches (tracked : List Str) (f : Str) : Bool → List LogLine → ℕ
  | _, [] => 0
  | _, .header _ v _ _ :: rest => lineTouches tracked f v rest
  | cur, .stat a r p :: rest =>
    (if cur ∧ p = f ∧ (statAccepted tracked a r p).isSome then 1 else 0) +
      lineTouches tracked f cur rest

theorem changeCount_foldl (tracked : List Str) (f : Str) (lines : List LogLine) :
    ∀ st : GitLogState,
      changeCountOf (lines.foldl (processLogLine tracked) st).file_stats f =
        changeCountOf st.file_stats f + lineTouches tracked f st.current.isSome lines := by
  induction lines with
  | nil => intro st; simp [lineTouches]
  | cons line rest ih =>
    intro st
    simp only [List.foldl_cons]
    cases line with
    | header hash v date author =>
      rw [ih]
      have h1 : (processLogLine tracked st (.header hash v date author)).file_stats =
          st.file_stats := rfl
      have h2 : (processLogLine tracked st (.header hash v date author)).current.isSome = v := by
        cases v <;> rfl
      rw [h1, h2]
      rfl
    | stat a r p =>
      cases hc : st.current with
      | none =>
        have hid : processLogLine tracked st (.stat a r p) = st := by
          simp [processLogLine, hc]
        rw [ih, hid, hc]
        simp [lineTouches]
      | some da =>
        cases hacc : statAccepted tracked a r p with
        | none =>
          have hid : processLogLine tracked st (.stat a r p) = st := by
            simp [processLogLine, hc, hacc]
          rw [ih, hid, hc]
          simp [lineTouches, hacc]
        | some lalr =>
          obtain ⟨la, lr⟩ := lalr
          obtain ⟨date, author⟩ := da
          have hfs : (processLogLine tracked st (.stat a r p)).file_stats =
              setA st.file_stats p
                (updateStats ((lookupA st.file_stats p).getD { path := p }) la lr date author) := by
            simp [processLogLine, hc, hacc]
          have hcur : (processLogLine tracked st (.stat a r p)).current = st.current := by
            simp [processLogLine, hc, hacc]
          rw [ih, hfs, hcur, hc]
          by_cases hpf : p = f
          · subst hpf
            have hnew : changeCountOf (setA st.file_stats p
                (updateStats ((lookupA st.file_stats p).getD { path := p }) la lr date author)) p =
                changeCountOf st.file_stats p + 1 := by
              unfold changeCountOf
              rw [lookupA_setA_self]
              cases hl : lookupA st.file_stats p with
              | none => simp [hl, updateStats]
              | some fs => simp [hl, updateStats]
            rw [hnew]
            simp [lineTouches, hacc]
            omega
          · have hother : changeCountOf (setA st.file_stats p
                (updateStats ((lookupA st.file_stats p).getD { path := p }) la lr date author)) f =
                changeCountOf st.file_stats f := by
              unfold changeCountOf
              rw [lookupA_setA_other _ _ _ _ (fun h => hpf h.symm)]
            rw [hother]
            simp [lineTouches, hpf]

theorem touchCount_cons (tracked : List Str) (f : Str) (s : StatField × StatField × Str)
    (stats : List (StatField × StatField × Str)) :
    touchCount tracked f (s :: stats) = touchCount tracked f stats +
      (if decide (s.2.2 = f) && (statAccepted tracked s.1 s.2.1 s.2.2).isSome then 1 else 0) :=
  List.countP_cons ..

theorem lineTouches_blocks (tracked : List Str) (f : Str) (lines : List LogLine) :
    ∀ cur : Bool,
      lineTouches tracked f cur lines =
        (if cur then touchCount tracked f (blocksAux lines).1 else 0) +
          ((blocksAux lines).2.map (fun b => if b.1 then touchCount tracked f b.2 else 0)).sum := by
  induction lines with
  | nil => intro cur; simp [lineTouches, blocksAux, touchCount]
  | cons line rest ih =>
    intro cur
    cases line with
    | header hash v date author =>
      show lineTouches tracked f v rest = _
      rw [ih v]
      simp only [blocksAux, List.map_cons, List.sum_cons]
      simp [touchCount]
    | stat a r p =>
      show (if cur ∧ p = f ∧ (statAccepted tracked a r p).isSome then 1 else 0) +
          lineTouches tracked f cur rest = _
      rw [ih cur]
      simp only [blocksAux]
      cases cur with
      | false => simp
      | true =>
        simp only [if_true, true_and]
        rw [touchCount_cons]
        by_cases hpf : p = f
        · subst hpf
          by_cases hso : (statAccepted tracked a r p).isSome
          · simp [hso]
            omega
          · simp [hso]
        · simp [hpf]

theorem sum_eq_countP_of_le_one (tracked : List Str) (f : Str)
    (blocks : List (Bool × List (StatField × StatField × Str)))
    (hle : ∀ b ∈ blocks, touchCount tracked f b.2 ≤ 1) :
    (blocks.map (fun b => if b.1 then touchCount tracked f b.2 else 0)).sum =
      blocks.countP (fun b => b.1 && decide (0 < touchCount tracked f b.2)) := by
  induction blocks with
  | nil => rfl
  | cons b bs ih =>
    simp only [List.map_cons, List.sum_cons, List.countP_cons]
    rw [ih (fun x hx => hle x (List.mem_cons.mpr (Or.inr hx)))]
    have hb := hle b (List.mem_cons_self b bs)
    rcases Nat.le_one_iff_eq_zero_or_eq_one.mp hb with h0 | h1
    · cases hbb : b.1 <;> simp [h0, hbb]
    · cases hbb : b.1 <;> simp [h1, hbb] <;> omega

/-- C8: for every file, the recorded `change_count` equals the number of
distinct commits in the mined stream (non-merge, in-window, by the `git
log` arguments) with a valid timestamp that touch the file after
exclusion filtering — binary-marked entries, untracked files, excluded
paths and malformed counts do not contribute.  The hypothesis states
that no commit lists the same file in two accepted numstat entries,
which `git log --numstat` guarantees (one entry per file per commit);
without it each extra entry would increment `change_count` again. -/
theorem change_count_eq_distinct_commits (lines : List LogLine) (tracked : List Str) (f : Str)
    (hdistinct : ∀ b ∈ commitBlocks lines, touchCount tracked f b.2 ≤ 1) :
    changeCountOf (analyze_git_log lines tracked) f = specChangeCount lines tracked f := by
  unfold analyze_git_log specChangeCount commitBlocks
  rw [changeCount_foldl]
  have h0 : changeCountOf (GitLogState.mk none []).file_stats f = 0 := rfl
  rw [h0, lineTouches_blocks]
  simp only [Option.isSome_none, Bool.false_eq_true, if_neg, not_false_iff, Nat.zero_add]
  exact sum_eq_countP_of_le_one tracked f _ hdistinct

/-- The two-commit log stream used to witness C8: two valid commits touch
`a.ts`; the second also touches an excluded test file. -/
def witnessLog : List LogLine :=
  [ .header (strL "h1") true 10 (strL "alice"),
    .stat (.num 1) (.num 2) (strL "a.ts"),
    .header (strL "h2") true 20 (strL "bob"),
    .stat (.num 3) (.num 0) (strL "a.ts"),
    .stat (.num 1) (.num 1) (strL "b.test.ts") ]

/-- C8 (witness): on the concrete two-commit stream the parse records
`change_count = 2` for `a.ts`, equal to the distinct-commit count. -/
theorem change_count_eq_distinct_commits_witness :
    changeCountOf (analyze_git_log witnessLog [strL "a.ts"]) (strL "a.ts") =
      specChangeCount witnessLog [strL "a.ts"] (strL "a.ts") :=
  change_count_eq_distinct_commits witnessLog [strL "a.ts"] (strL "a.ts") (by decide)

/-! ### Temporal coupling (git_analysis.py lines 245-328)

The `--name-only` stream is modelled already grouped into commits (the
40-hex-character hash lines delimit groups); each commit is its list of
raw file-path lines.  The per-line filters, the per-commit file sets,
the pairwise counters and the thresholds are embedded below. -/

/-- Lines of a commit that pass `line in tracked_files and not
_should_skip_file(line)`. -/
def acceptedNameLines (tracked : List Str) (c : List Str) : List Str :=
  c.filter (fun l => decide (l ∈ tracked) && !_should_skip_file l)

/-- First-occurrence deduplication: the contents of a Python set built by
repeated `add`, listed in first-insertion order. -/
def firstDedup {α : Type} [DecidableEq α] (l : List α) : List α :=
  l.foldl (fun acc x => if x ∈ acc then acc else acc ++ [x]) []

/-- `file_change_count[f]`: one increment per accepted line. -/
def file_change_count (tracked : List Str) (commits : List (List Str)) (f : Str) : ℕ :=
  (commits.map (fun c => (acceptedNameLines tracked c).countP (fun l => decide (l = f)))).sum

/-- Insertion step of an ascending string sort (Python `sorted`). -/
def insertSorted (x : Str) : List Str → List Str
  | [] => [x]
  | y :: ys => if strLt x y then x :: y :: ys else y :: insertSorted x ys

/-- Ascending sort of the distinct file names (`sorted(files)`). -/
def sortStrs (l : List Str) : List Str := l.foldr insertSorted []

/-- `sorted(files)` for one commit's accepted file set. -/
def sortedFiles (tracked : List Str) (c : List Str) : List Str :=
  sortStrs (firstDedup (acceptedNameLines tracked c))

/-- All ordered pairs `(l[i], l[j])`, `i < j` — the nested loop
`for i, file1 in enumerate(file_list): for file2 in file_list[i+1:]`. -/
def pairsOf : List Str → List (Str × Str)
  | [] => []
  | x :: xs => xs.map (fun y => (x, y)) ++ pairsOf xs

/-- The multiset of co-occurrence pairs over all commits, in commit
order: each commit contributes the pairs of its sorted file set, and the
`coupling_count` dictionary maps each pair to its number of occurrences
here. -/
def allPairsOf (tracked : List Str) (commits : List (List Str)) : List (Str × Str) :=
  commits.foldr (fun c acc => pairsOf (sortedFiles tracked c) ++ acc) []

/-- `TemporalCoupling` from git_analysis.py. -/
structure TemporalCoupling where
  file1 : Str
  file2 : Str
  coupled_commits : ℕ
  coupling_ratio : ℚ
deriving DecidableEq

/-- Stable insertion before the first strictly smaller element: inserting
each element of a list in turn reproduces Python's stable
`list.sort(key=..., reverse=True)` order. -/
def stableInsertBy {α : Type} (lt : α → α → Bool) (x : α) : List α → List α
  | [] => [x]
  | y :: ys => if lt y x then x :: y :: ys else y :: stableInsertBy lt x ys

/-- Stable descending sort by the strict comparison `lt`. -/
def stableSortBy {α : Type} (lt : α → α → Bool) (l : List α) : List α :=
  l.foldl (fun acc x => stableInsertBy lt x acc) []

/-- Strict comparison of the sort key `(coupling_ratio, coupled_commits)`
(Python tuple order). -/
def ltRatioCount (a b : TemporalCoupling) : Bool :=
  decide (a.coupling_ratio < b.coupling_ratio) ||
    (decide (a.coupling_ratio = b.coupling_ratio) &&
      decide (a.coupled_commits < b.coupled_commits))

/-- `analyze_temporal_coupling`: count pair co-occurrences, keep pairs
meeting both the absolute and the ratio threshold, rank by
`(coupling_ratio, coupled_commits)` descending, return the top 50. -/
def analyze_temporal_coupling (tracked : List Str) (commits : List (List Str))
    (min_coupling : ℕ) (min_ratio : ℚ) : List TemporalCoupling :=
  let allPairs := allPairsOf tracked commits
  let couplings := (firstDedup allPairs).foldl (fun acc p =>
    let count := allPairs.countP (fun q => decide (q = p))
    if count < min_coupling then acc
    else
      let minChanges := min (file_change_count tracked commits p.1)
        (file_change_count tracked commits p.2)
      let ratio : ℚ := if minChanges > 0 then (count : ℚ) / (minChanges : ℚ) else 0
      if ratio ≥ min_ratio then acc ++ [⟨p.1, p.2, count, ratio⟩] else acc) []
  (stableSortBy ltRatioCount couplings).take 50

/-- The coupling ratio the code computes for an unordered file pair: the
occurrence count of the pair under its canonical (sorted) key, divided by
the smaller of the two files' change counts. -/
def couplingRatioOf (tracked : List Str) (commits : List (List Str)) (a b : Str) : ℚ :=
  let key := if strLt b a then (b, a) else (a, b)
  let count := (allPairsOf tracked commits).countP (fun q => decide (q = key))
  let minChanges := min (file_change_count tracked commits a) (file_change_count tracked commits b)
  if minChanges > 0 then (count : ℚ) / (minChanges : ℚ) else 0

theorem couplingRatio_symm (tracked : List Str) (commits : List (List Str)) (a b : Str) :
    couplingRatioOf tracked commits a b = couplingRatioOf tracked commits b a := by
  unfold couplingRatioOf
  have hkey : (if strLt b a then (b, a) else (a, b)) = (if strLt a b then (a, b) else (b, a)) := by
    rcases strLt_trichotomy a b with h | h | h
    · rw [h, strLt_asymm h]
      simp
    · subst h
      rfl
    · rw [h, strLt_asymm h]
      simp
  rw [hkey, min_comm]

/-- The C7 scenario: two files share four commits, and each additionally
appears in one commit of its own. -/
def scenarioCommits : List (List Str) :=
  [[strL "a.ts", strL "b.ts"], [strL "a.ts", strL "b.ts"], [strL "a.ts", strL "b.ts"],
   [strL "a.ts", strL "b.ts"], [strL "a.ts"], [strL "b.ts"]]

/-- Tracked files of the C7 scenario. -/
def scenarioTracked : List Str := [strL "a.ts", strL "b.ts"]

/-- Concrete evaluation of the scenario: the single emitted pair has
4 coupled commits and ratio `4/5`. -/
theorem scenario_coupling_eval :
    analyze_temporal_coupling scenarioTracked scenarioCommits 3 (3/10) =
      [⟨strL "a.ts", strL "b.ts", 4, 4/5⟩] := by
  have hkeys : firstDedup (allPairsOf scenarioTracked scenarioCommits) =
      [(strL "a.ts", strL "b.ts")] := by decide
  have hcount : (allPairsOf scenarioTracked scenarioCommits).countP
      (fun q => decide (q = (strL "a.ts", strL "b.ts"))) = 4 := by decide
  have hcca : file_change_count scenarioTracked scenarioCommits (strL "a.ts") = 5 := by decide
  have hccb : file_change_count scenarioTracked scenarioCommits (strL "b.ts") = 5 := by decide
  simp only [analyze_temporal_coupling]
  rw [hkeys]
  simp only [List.foldl_cons, List.foldl_nil, hcount, hcca, hccb]
  norm_num [stableSortBy, stableInsertBy]

/-- C7: the coupling ratio of a pair — pair count under its canonical
sorted key over the smaller individual change count — is symmetric in the
two files regardless of enumeration order; and in the scenario with two
files sharing 4 of their 5 commits each, the produced coupling is exactly
one pair with `coupled_commits = 4` and `coupling_ratio = 4/5 = 0.8`,
emitted through both the absolute-count (`4 ≥ 3`) and ratio
(`0.8 ≥ 0.3`) thresholds. -/
theorem coupling_ratio_symmetric_and_scenario :
    (∀ (tracked : List Str) (commits : List (List Str)) (a b : Str),
        couplingRatioOf tracked commits a b = couplingRatioOf tracked commits b a) ∧
      analyze_temporal_coupling scenarioTracked scenarioCommits 3 (3/10) =
        [⟨strL "a.ts", strL "b.ts", 4, 4/5⟩] :=
  ⟨couplingRatio_symm, scenario_coupling_eval⟩

/-! ### C10: invariants of the emitted couplings -/

theorem mem_foldl_dedup {α : Type} [DecidableEq α] (l : List α) :
    ∀ (acc : List α) (x : α),
      (x ∈ l.foldl (fun acc y => if y ∈ acc then acc else acc ++ [y]) acc ↔ x ∈ acc ∨ x ∈ l) := by
  induction l with
  | nil => intro acc x; simp
  | cons y ys ih =>
    intro acc x
    simp only [List.foldl_cons]
    by_cases hy : y ∈ acc
    · rw [if_pos hy, ih]
      constructor
      · rintro (h | h)
        · exact Or.inl h
        · exact Or.inr (List.mem_cons.mpr (Or.inr h))
      · rintro (h | h)
        · exact Or.inl h
        · rcases List.mem_cons.mp h with h' | h'
          · exact Or.inl (h' ▸ hy)
          · exact Or.inr h'
    · rw [if_neg hy, ih]
      constructor
      · rintro (h | h)
        · rcases List.mem_append.mp h with h' | h'
          · exact Or.inl h'
          · exact Or.inr (List.mem_cons.mpr (Or.inl (List.mem_singleton.mp h')))
        · exact Or.inr (List.mem_cons.mpr (Or.inr h))
      · rintro (h | h)
        · exact Or.inl (List.mem_append.mpr (Or.inl h))
        · rcases List.mem_cons.mp h with h' | h'
          · exact Or.inl (List.mem_append.mpr (Or.inr (List.mem_singleton.mpr h')))
          · exact Or.inr h'

theorem mem_firstDedup {α : Type} [DecidableEq α] {l : List α} {x : α} :
    x ∈ firstDedup l ↔ x ∈ l := by
  unfold firstDedup
  rw [mem_foldl_dedup]
  simp

theorem nodup_foldl_dedup {α : Type} [DecidableEq α] (l : List α) :
    ∀ acc : List α, acc.Nodup →
      (l.foldl (fun acc y => if y ∈ acc then acc else acc ++ [y]) acc).Nodup := by
  induction l with
  | nil => intro acc h; exact h
  | cons y ys ih =>
    intro acc hacc
    simp only [List.foldl_cons]
    by_cases hy : y ∈ acc
    · rw [if_pos hy]; exact ih acc hacc
    · rw [if_neg hy]
      refine ih _ ?_
      rw [List.nodup_append]
      exact ⟨hacc, List.nodup_singleton y, by simpa [List.disjoint_singleton] using hy⟩

theorem nodup_firstDedup {α : Type} [DecidableEq α] (l : List α) : (firstDedup l).Nodup :=
  nodup_foldl_dedup l [] List.nodup_nil

theorem mem_pairsOf {l : List Str} {p : Str × Str} (h : p ∈ pairsOf l) :
    p.1 ∈ l ∧ p.2 ∈ l := by
  induction l with
  | nil => exact absurd h (List.not_mem_nil p)
  | cons x xs ih =>
    simp only [pairsOf] at h
    rcases List.mem_append.mp h with h' | h'
    · rcases List.mem_map.mp h' with ⟨y, hy, hxy⟩
      rw [← hxy]
      exact ⟨List.mem_cons_self x xs, List.mem_cons.mpr (Or.inr hy)⟩
    · have := ih h'
      exact ⟨List.mem_cons.mpr (Or.inr this.1), List.mem_cons.mpr (Or.inr this.2)⟩

theorem nodup_pairsOf {l : List Str} (h : l.Nodup) : (pairsOf l).Nodup := by
  induction l with
  | nil => exact List.nodup_nil
  | cons x xs ih =>
    simp only [pairsOf]
    rw [List.nodup_append]
    obtain ⟨hx, hxs⟩ := List.nodup_cons.mp h
    refine ⟨?_, ih hxs, ?_⟩
    · exact List.Nodup.map (fun a b hab => by simpa using congrArg Prod.snd hab) hxs
    · intro p hp hp'
      rcases List.mem_map.mp hp with ⟨y, hy, hxy⟩
      have := (mem_pairsOf hp').1
      rw [← hxy] at this
      exact hx this

theorem countP_eq_le_one {α : Type} [DecidableEq α] {l : List α} (h : l.Nodup) (p : α) :
    l.countP (fun q => decide (q = p)) ≤ 1 := by
  induction l with
  | nil => simp
  | cons x xs ih =>
    obtain ⟨hx, hxs⟩ := List.nodup_cons.mp h
    rw [List.countP_cons]
    by_cases hxp : x = p
    · subst hxp
      have : xs.countP (fun q => decide (q = x)) = 0 := by
        rw [List.countP_eq_zero]
        intro a ha
        simp only [decide_eq_true_eq]
        intro hax
        exact hx (hax ▸ ha)
      simp [this]
    · simp [hxp, ih hxs]

theorem insertSorted_perm (x : Str) (l : List Str) : (insertSorted x l).Perm (x :: l) := by
  induction l with
  | nil => exact List.Perm.refl _
  | cons y ys ih =>
    simp only [insertSorted]
    by_cases h : strLt x y
    · rw [if_pos h]
    · rw [if_neg h]
      exact List.Perm.trans (List.Perm.cons y ih) (List.Perm.swap x y ys)

theorem sortStrs_perm (l : List Str) : (sortStrs l).Perm l := by
  induction l with
  | nil => exact List.Perm.refl _
  | cons x xs ih =>
    simp only [sortStrs, List.foldr_cons]
    exact List.Perm.trans (insertSorted_perm x _) (List.Perm.cons x ih)

theorem stableInsertBy_perm {α : Type} (lt : α → α → Bool) (x : α) (l : List α) :
    (stableInsertBy lt x l).Perm (x :: l) := by
  induction l with
  | nil => exact List.Perm.refl _
  | cons y ys ih =>
    simp only [stableInsertBy]
    by_cases h : lt y x
    · rw [if_pos h]
    · rw [if_neg h]
      exact List.Perm.trans (List.Perm.cons y ih) (List.Perm.swap x y ys)

theorem stableSortBy_perm {α : Type} (lt : α → α → Bool) (l : List α) :
    (stableSortBy lt l).Perm l := by
  unfold stableSortBy
  have aux : ∀ (l acc : List α),
      (l.foldl (fun acc x => stableInsertBy lt x acc) acc).Perm (l ++ acc) := by
    intro l
    induction l with
    | nil => intro acc; simp
    | cons x xs ih =>
      intro acc
      simp only [List.foldl_cons]
      exact List.Perm.trans (ih _) (List.Perm.trans
        (List.Perm.append_left xs (stableInsertBy_perm lt x acc)) List.perm_middle)
  simpa using aux l []

theorem nodup_sortedFiles (tracked : List Str) (c : List Str) :
    (sortedFiles tracked c).Nodup := by
  unfold sortedFiles
  exact (List.Perm.nodup_iff (sortStrs_perm _)).mpr (nodup_firstDedup _)

theorem commit_pair_count_le_first (tracked : List Str) (c : List Str) (p : Str × Str) :
    (pairsOf (sortedFiles tracked c)).countP (fun q => decide (q = p)) ≤
      (acceptedNameLines tracked c).countP (fun l => decide (l = p.1)) := by
  have hle1 : (pairsOf (sortedFiles tracked c)).countP (fun q => decide (q = p)) ≤ 1 :=
    countP_eq_le_one (nodup_pairsOf (nodup_sortedFiles tracked c)) p
  rcases Nat.le_one_iff_eq_zero_or_eq_one.mp hle1 with h0 | h1
  · omega
  · rw [h1]
    have hpos : 0 < (pairsOf (sortedFiles tracked c)).countP (fun q => decide (q = p)) := by
      omega
    rcases List.countP_pos.mp hpos with ⟨q, hq, hqp⟩
    simp only [decide_eq_true_eq] at hqp
    subst hqp
    have h1mem : q.1 ∈ sortedFiles tracked c := (mem_pairsOf hq).1
    have h1mem' : q.1 ∈ acceptedNameLines tracked c := by
      have := (List.Perm.mem_iff (sortStrs_perm _)).mp h1mem
      exact mem_firstDedup.mp this
    have : 0 < (acceptedNameLines tracked c).countP (fun l => decide (l = q.1)) :=
      List.countP_pos.mpr ⟨q.1, h1mem', by simp⟩
    omega

theorem commit_pair_count_le_second (tracked : List Str) (c : List Str) (p : Str × Str) :
    (pairsOf (sortedFiles tracked c)).countP (fun q => decide (q = p)) ≤
      (acceptedNameLines tracked c).countP (fun l => decide (l = p.2)) := by
  have hle1 : (pairsOf (sortedFiles tracked c)).countP (fun q => decide (q = p)) ≤ 1 :=
    countP_eq_le_one (nodup_pairsOf (nodup_sortedFiles tracked c)) p
  rcases Nat.le_one_iff_eq_zero_or_eq_one.mp hle1 with h0 | h1
  · omega
  · rw [h1]
    have hpos : 0 < (pairsOf (sortedFiles tracked c)).countP (fun q => decide (q = p)) := by
      omega
    rcases List.countP_pos.mp hpos with ⟨q, hq, hqp⟩
    simp only [decide_eq_true_eq] at hqp
    subst hqp
    have h2mem : q.2 ∈ sortedFiles tracked c := (mem_pairsOf hq).2
    have h2mem' : q.2 ∈ acceptedNameLines tracked c := by
      have := (List.Perm.mem_iff (sortStrs_perm _)).mp h2mem
      exact mem_firstDedup.mp this
    have : 0 < (acceptedNameLines tracked c).countP (fun l => decide (l = q.2)) :=
      List.countP_pos.mpr ⟨q.2, h2mem', by simp⟩
    omega

theorem allPairs_count_le_cc1 (tracked : List Str) (commits : List (List Str)) (p : Str × Str) :
    (allPairsOf tracked commits).countP (fun q => decide (q = p)) ≤
      file_change_count tracked commits p.1 := by
  induction commits with
  | nil => simp [allPairsOf, file_change_count]
  | cons c cs ih =>
    simp only [allPairsOf, List.foldr_cons, file_change_count, List.map_cons, List.sum_cons]
    rw [List.countP_append]
    have h1 := commit_pair_count_le_first tracked c p
    have h2 : (cs.foldr (fun c acc => pairsOf (sortedFiles tracked c) ++ acc) []).countP
        (fun q => decide (q = p)) ≤
        (cs.map (fun c => (acceptedNameLines tracked c).countP
          (fun l => decide (l = p.1)))).sum := ih
    omega

theorem allPairs_count_le_cc2 (tracked : List Str) (commits : List (List Str)) (p : Str × Str) :
    (allPairsOf tracked commits).countP (fun q => decide (q = p)) ≤
      file_change_count tracked commits p.2 := by
  induction commits with
  | nil => simp [allPairsOf, file_change_count]
  | cons c cs ih =>
    simp only [allPairsOf, List.foldr_cons, file_change_count, List.map_cons, List.sum_cons]
    rw [List.countP_append]
    have h1 := commit_pair_count_le_second tracked c p
    have h2 : (cs.foldr (fun c acc => pairsOf (sortedFiles tracked c) ++ acc) []).countP
        (fun q => decide (q = p)) ≤
        (cs.map (fun c => (acceptedNameLines tracked c).countP
          (fun l => decide (l = p.2)))).sum := ih
    omega

/-- C10: every emitted `TemporalCoupling` satisfies `coupled_commits ≤
min(change count of file1, change count of file2)`, its ratio lies in
`(0, 1]`, its `coupled_commits` is at least the configured minimum, and
at most 50 pairs are returned. -/
theorem temporal_coupling_invariants (tracked : List Str) (commits : List (List Str))
    (minC : ℕ) (minR : ℚ) (tc : TemporalCoupling)
    (htc : tc ∈ analyze_temporal_coupling tracked commits minC minR) :
    tc.coupled_commits ≤ min (file_change_count tracked commits tc.file1)
        (file_change_count tracked commits tc.file2) ∧
      0 < tc.coupling_ratio ∧ tc.coupling_ratio ≤ 1 ∧
      minC ≤ tc.coupled_commits ∧
      (analyze_temporal_coupling tracked commits minC minR).length ≤ 50 := by
  have hlen : (analyze_temporal_coupling tracked commits minC minR).length ≤ 50 := by
    simp only [analyze_temporal_coupling]
    exact List.length_take_le ..
  have aux : ∀ (keys : List (Str × Str)) (acc : List TemporalCoupling),
      (∀ p ∈ keys, p ∈ firstDedup (allPairsOf tracked commits)) →
      (∀ x ∈ acc,
        x.coupled_commits ≤ min (file_change_count tracked commits x.file1)
            (file_change_count tracked commits x.file2) ∧
          0 < x.coupling_ratio ∧ x.coupling_ratio ≤ 1 ∧ minC ≤ x.coupled_commits) →
      ∀ x ∈ keys.foldl (fun acc p =>
        let count := (allPairsOf tracked commits).countP (fun q => decide (q = p))
        if count < minC then acc
        else
          let minChanges := min (file_change_count tracked commits p.1)
            (file_change_count tracked commits p.2)
          let ratio : ℚ := if minChanges > 0 then (count : ℚ) / (minChanges : ℚ) else 0
          if ratio ≥ minR then acc ++ [⟨p.1, p.2, count, ratio⟩] else acc) acc,
        x.coupled_commits ≤ min (file_change_count tracked commits x.file1)
            (file_change_count tracked commits x.file2) ∧
          0 < x.coupling_ratio ∧ x.coupling_ratio ≤ 1 ∧ minC ≤ x.coupled_commits := by
    intro keys
    induction keys with
    | nil => intro acc hkeys hacc x hx; exact hacc x hx
    | cons p keys' ih =>
      intro acc hkeys hacc x hx
      simp only [List.foldl_cons] at hx
      refine ih _ (fun q hq => hkeys q (List.mem_cons.mpr (Or.inr hq))) ?_ x hx
      intro y hy
      simp only at hy
      by_cases h1 : (allPairsOf tracked commits).countP (fun q => decide (q = p)) < minC
      · rw [if_pos h1] at hy
        exact hacc y hy
      · rw [if_neg h1] at hy
        have hp : p ∈ firstDedup (allPairsOf tracked commits) :=
          hkeys p (List.mem_cons_self p keys')
        have hpmem : p ∈ allPairsOf tracked commits := mem_firstDedup.mp hp
        have hcount1 : 0 < (allPairsOf tracked commits).countP (fun q => decide (q = p)) :=
          List.countP_pos.mpr ⟨p, hpmem, by simp⟩
        have hle1 := allPairs_count_le_cc1 tracked commits p
        have hle2 := allPairs_count_le_cc2 tracked commits p
        have hlemin : (allPairsOf tracked commits).countP (fun q => decide (q = p)) ≤
            min (file_change_count tracked commits p.1)
              (file_change_count tracked commits p.2) :=
          le_min hle1 hle2
        have hminpos : 0 < min (file_change_count tracked commits p.1)
            (file_change_count tracked commits p.2) := lt_of_lt_of_le hcount1 hlemin
        rw [if_pos hminpos] at hy
        by_cases h2 : ((allPairsOf tracked commits).countP (fun q => decide (q = p)) : ℚ) /
            ((min (file_change_count tracked commits p.1)
              (file_change_count tracked commits p.2) : ℕ) : ℚ) ≥ minR
        · rw [if_pos h2] at hy
          rcases List.mem_append.mp hy with h' | h'
          · exact hacc y h'
          · rw [List.mem_singleton.mp h']
            refine ⟨hlemin, ?_, ?_, Nat.le_of_not_lt h1⟩
            · exact div_pos (by exact_mod_cast hcount1) (by exact_mod_cast hminpos)
            · rw [div_le_one (by exact_mod_cast hminpos)]
              exact_mod_cast hlemin
        · rw [if_neg h2] at hy
          exact hacc y hy
  have htc' : tc ∈ (firstDedup (allPairsOf tracked commits)).foldl (fun acc p =>
      let count := (allPairsOf tracked commits).countP (fun q => decide (q = p))
      if count < minC then acc
      else
        let minChanges := min (file_change_count tracked commits p.1)
          (file_change_count tracked commits p.2)
        let ratio : ℚ := if minChanges > 0 then (count : ℚ) / (minChanges : ℚ) else 0
        if ratio ≥ minR then acc ++ [⟨p.1, p.2, count, ratio⟩] else acc) [] := by
    simp only [analyze_temporal_coupling] at htc
    exact (stableSortBy_perm ltRatioCount _).mem_iff.mp (List.take_subset _ _ htc)
  have hmain := aux (firstDedup (allPairsOf tracked commits)) [] (fun q hq => hq)
    (fun x hx => absurd hx (List.not_mem_nil x)) tc htc'
  exact ⟨hmain.1, hmain.2.1, hmain.2.2.1, hmain.2.2.2, hlen⟩

/-- C10 (witness): the invariants instantiated on the concrete scenario
coupling (counts 5 and 5, canonical pair count 4, ratio `4/5`). -/
theorem temporal_coupling_invariants_witness :
    (⟨strL "a.ts", strL "b.ts", 4, 4/5⟩ : TemporalCoupling).coupled_commits ≤
        min (file_change_count scenarioTracked scenarioCommits
            (⟨strL "a.ts", strL "b.ts", 4, 4/5⟩ : TemporalCoupling).file1)
          (file_change_count scenarioTracked scenarioCommits
            (⟨strL "a.ts", strL "b.ts", 4, 4/5⟩ : TemporalCoupling).file2) ∧
      0 < (⟨strL "a.ts", strL "b.ts", 4, 4/5⟩ : TemporalCoupling).coupling_ratio ∧
      (⟨strL "a.ts", strL "b.ts", 4, 4/5⟩ : TemporalCoupling).coupling_ratio ≤ 1 ∧
      3 ≤ (⟨strL "a.ts", strL "b.ts", 4, 4/5⟩ : TemporalCoupling).coupled_commits ∧
      (analyze_temporal_coupling scenarioTracked scenarioCommits 3 (3/10)).length ≤ 50 :=
  temporal_coupling_invariants scenarioTracked scenarioCommits 3 (3/10)
    ⟨strL "a.ts", strL "b.ts", 4, 4/5⟩
    (by rw [scenario_coupling_eval]; exact List.mem_singleton.mpr rfl)

/-! ### Stable sort: order and stability lemmas -/

theorem stableInsertBy_pairwise {α : Type} (lt : α → α → Bool)
    (htrans : ∀ a b c, lt a b = true → lt b c = true → lt a c = true)
    (hirr : ∀ a, lt a a = false) (x : α) (l : List α)
    (hl : l.Pairwise (fun a b => lt a b = false)) :
    (stableInsertBy lt x l).Pairwise (fun a b => lt a b = false) := by
  induction l with
  | nil => simp [stableInsertBy]
  | cons y ys ih =>
    obtain ⟨hy, hys⟩ := List.pairwise_cons.mp hl
    simp only [stableInsertBy]
    by_cases h : lt y x
    · rw [if_pos h]
      refine List.pairwise_cons.mpr ⟨?_, hl⟩
      intro w hw
      rcases List.mem_cons.mp hw with h' | h'
      · subst h'
        cases hxw : lt x w with
        | false => rfl
        | true =>
          have := htrans w x w h hxw
          rw [hirr w] at this
          exact absurd this Bool.false_ne_true
      · cases hxw : lt x w with
        | false => rfl
        | true =>
          have := htrans y x w h hxw
          rw [hy w h'] at this
          exact absurd this Bool.false_ne_true
    · rw [if_neg h]
      refine List.pairwise_cons.mpr ⟨?_, ih hys⟩
      intro w hw
      rcases (stableInsertBy_perm lt x ys).mem_iff.mp hw with h'
      rcases List.mem_cons.mp h' with h'' | h''
      · subst h''
        simpa using h
      · exact hy w h''

theorem stableSortBy_pairwise {α : Type} (lt : α → α → Bool)
    (htrans : ∀ a b c, lt a b = true → lt b c = true → lt a c = true)
    (hirr : ∀ a, lt a a = false) (l : List α) :
    (stableSortBy lt l).Pairwise (fun a b => lt a b = false) := by
  unfold stableSortBy
  have aux : ∀ (l acc : List α), acc.Pairwise (fun a b => lt a b = false) →
      (l.foldl (fun acc x => stableInsertBy lt x acc) acc).Pairwise
        (fun a b => lt a b = false) := by
    intro l
    induction l with
    | nil => intro acc h; exact h
    | cons x xs ih =>
      intro acc hacc
      simp only [List.foldl_cons]
      exact ih _ (stableInsertBy_pairwise lt htrans hirr x acc hacc)
  exact aux l [] List.Pairwise.nil

theorem stableInsertBy_filter {α : Type} (lt : α → α → Bool) (p : α → Bool)
    (hp : ∀ a b, p a = true → p b = true → lt a b = false)
    (hcong : ∀ y a b, p a = true → p b = true → lt y a = lt y b)
    (x : α) (l : List α) (hl : l.Pairwise (fun a b => lt a b = false)) :
    (stableInsertBy lt x l).filter p =
      (if p x then l.filter p ++ [x] else l.filter p) := by
  induction l with
  | nil =>
    simp only [stableInsertBy, List.filter_nil]
    cases hpx : p x <;> simp [List.filter, hpx]
  | cons y ys ih =>
    obtain ⟨hy, hys⟩ := List.pairwise_cons.mp hl
    simp only [stableInsertBy]
    by_cases h : lt y x
    · rw [if_pos h]
      cases hpx : p x with
      | false =>
        simp only [if_neg, Bool.false_eq_true, not_false_iff]
        rw [List.filter_cons, if_neg (by simp [hpx])]
      | true =>
        simp only [if_pos]
        have hempty : (y :: ys).filter p = [] := by
          rw [List.filter_eq_nil_iff]
          intro z hz
          intro hpz
          rcases List.mem_cons.mp hz with h' | h'
          · subst h'
            rw [hp z x hpz hpx] at h
            exact Bool.false_ne_true h
          · have h1 : lt y z = false := hy z h'
            have h2 : lt y x = lt y z := hcong y x z hpx hpz
            rw [h2, h1] at h
            exact Bool.false_ne_true h
        rw [List.filter_cons, if_pos (by simp [hpx]), hempty]
        rfl
    · rw [if_neg h]
      rw [List.filter_cons, List.filter_cons]
      cases hpy : p y with
      | false =>
        simp only [Bool.false_eq_true, if_neg, not_false_iff]
        exact ih hys
      | true =>
        simp only [if_pos]
        rw [ih hys]
        cases hpx : p x with
        | false => simp
        | true => simp

theorem stableSortBy_filter {α : Type} (lt : α → α → Bool) (p : α → Bool)
    (htrans : ∀ a b c, lt a b = true → lt b c = true → lt a c = true)
    (hirr : ∀ a, lt a a = false)
    (hp : ∀ a b, p a = true → p b = true → lt a b = false)
    (hcong : ∀ y a b, p a = true → p b = true → lt y a = lt y b)
    (l : List α) :
    (stableSortBy lt l).filter p = l.filter p := by
  unfold stableSortBy
  have aux : ∀ (l acc : List α), acc.Pairwise (fun a b => lt a b = false) →
      (l.foldl (fun acc x => stableInsertBy lt x acc) acc).filter p =
        acc.filter p ++ l.filter p := by
    intro l
    induction l with
    | nil => intro acc hacc; simp
    | cons x xs ih =>
      intro acc hacc
      simp only [List.foldl_cons]
      rw [ih _ (stableInsertBy_pairwise lt htrans hirr x acc hacc),
        stableInsertBy_filter lt p hp hcong x acc hacc, List.filter_cons]
      cases hpx : p x with
      | false => simp
      | true => simp
  simpa using aux l [] List.Pairwise.nil

/-! ### Priority aggregation (snapshot.py lines 84-121) -/

/-- Per-file complexity record supplied by the complexity collaborator
(`code_lines`/`max_complexity` are ints, `avg_complexity` a float). -/
structure ComplexityInfo where
  max_complexity : ℕ
  avg_complexity : ℚ
  code_lines : ℕ
deriving DecidableEq

/-- A priority-hotspot entry as assembled in `compute_priority_hotspots`. -/
structure PriorityHotspot where
  path : Str
  change_count : ℕ
  churn : ℕ
  max_complexity : ℕ
  avg_complexity : ℚ
  code_lines : ℕ
  priority_score : ℕ
deriving DecidableEq

/-- `priority_score = change_count * max_complexity` (line 105). -/
def priorityScore (change_count max_complexity : ℕ) : ℕ :=
  change_count * max_complexity

/-- Build one entry: look the hotspot's path up in the complexity table
(`max_complexity` defaults to 1, the others to 0 when absent). -/
def mkPriorityEntry (complexity : List (Str × ComplexityInfo)) (h : FileStats) :
    PriorityHotspot :=
  let ci := lookupA complexity h.path
  let mc := (ci.map (fun c => c.max_complexity)).getD 1
  { path := h.path
    change_count := h.change_count
    churn := h.churn
    max_complexity := mc
    avg_complexity := (ci.map (fun c => c.avg_complexity)).getD 0
    code_lines := (ci.map (fun c => c.code_lines)).getD 0
    priority_score := priorityScore h.change_count mc }

/-- Strict comparison on the sort key `priority_score`. -/
def ltScore (a b : PriorityHotspot) : Bool :=
  decide (a.priority_score < b.priority_score)

/-- `compute_priority_hotspots`: build all entries, sort by
`priority_score` descending (Python's stable sort), return the top 20. -/
def compute_priority_hotspots (hotspots : List FileStats)
    (complexity : List (Str × ComplexityInfo)) : List PriorityHotspot :=
  (stableSortBy ltScore (hotspots.map (mkPriorityEntry complexity))).take 20

/-- File X of the C6 scenario: change_count 10. -/
def hotspotX : FileStats := { path := strL "X", change_count := 10 }

/-- File Y of the C6 scenario: change_count 5. -/
def hotspotY : FileStats := { path := strL "Y", change_count := 5 }

/-- Complexity table of the C6 scenario: max 20 for X, 30 for Y. -/
def scenarioComplexity : List (Str × ComplexityInfo) :=
  [(strL "X", ⟨20, 0, 0⟩), (strL "Y", ⟨30, 0, 0⟩)]

/-- C6: priority hotspots are ranked by `priority_score` descending and
truncated to the top 20; the result is a deterministic function of its
inputs whose ties keep the incoming hotspot order — the sort is stable,
so entries with equal scores appear exactly in input order (the input
order itself carries the `(change_count, churn)` ranking of the hotspot
stage as the effective secondary key); and in the scenario, X
(10×20 = 200) ranks above Y (5×30 = 150) regardless of input order. -/
theorem priority_hotspots_ranked_truncated_stable (hotspots : List FileStats)
    (complexity : List (Str × ComplexityInfo)) :
    (compute_priority_hotspots hotspots complexity).Pairwise
        (fun a b => b.priority_score ≤ a.priority_score) ∧
      (compute_priority_hotspots hotspots complexity).length ≤ 20 ∧
      (∀ s : ℕ,
        (stableSortBy ltScore (hotspots.map (mkPriorityEntry complexity))).filter
            (fun e => decide (e.priority_score = s)) =
          (hotspots.map (mkPriorityEntry complexity)).filter
            (fun e => decide (e.priority_score = s))) ∧
      compute_priority_hotspots [hotspotX, hotspotY] scenarioComplexity =
        [⟨strL "X", 10, 0, 20, 0, 0, 200⟩, ⟨strL "Y", 5, 0, 30, 0, 0, 150⟩] ∧
      compute_priority_hotspots [hotspotY, hotspotX] scenarioComplexity =
        [⟨strL "X", 10, 0, 20, 0, 0, 200⟩, ⟨strL "Y", 5, 0, 30, 0, 0, 150⟩] := by
  have htrans : ∀ a b c : PriorityHotspot,
      ltScore a b = true → ltScore b c = true → ltScore a c = true := by
    intro a b c hab hbc
    simp only [ltScore, decide_eq_true_eq] at *
    omega
  have hirr : ∀ a : PriorityHotspot, ltScore a a = false := by
    intro a
    simp [ltScore]
  refine ⟨?_, ?_, ?_, by decide, by decide⟩
  · unfold compute_priority_hotspots
    refine List.Pairwise.sublist (List.take_sublist 20 _) ?_
    refine (stableSortBy_pairwise ltScore htrans hirr _).imp ?_
    intro a b hab
    simp only [ltScore, decide_eq_false_iff_not] at hab
    omega
  · unfold compute_priority_hotspots
    exact List.length_take_le ..
  · intro s
    refine stableSortBy_filter ltScore _ htrans hirr ?_ ?_ _
    · intro a b ha hb
      simp only [decide_eq_true_eq] at ha hb
      simp [ltScore, ha, hb]
    · intro y a b ha hb
      simp only [decide_eq_true_eq] at ha hb
      simp [ltScore, ha, hb]

/-- C9: `priority_score = change_count × max_complexity` is monotonically
non-decreasing in each argument with the other held fixed. -/
theorem priority_score_monotone (c c' m m' : ℕ) :
    (c ≤ c' → priorityScore c m ≤ priorityScore c' m) ∧
      (m ≤ m' → priorityScore c m ≤ priorityScore c m') := by
  constructor
  · intro h
    exact Nat.mul_le_mul_right m h
  · intro h
    exact Nat.mul_le_mul_left c h

/-- C9 (witness): monotonicity applied at `change_count` 2 → 3 and
`max_complexity` 7 → 9. -/
theorem priority_score_monotone_witness :
    priorityScore 2 7 ≤ priorityScore 3 7 ∧ priorityScore 2 7 ≤ priorityScore 2 9 :=
  ⟨(priority_score_monotone 2 3 7 7).1 (by decide),
    (priority_score_monotone 2 2 7 9).2 (by decide)⟩

/-! ### Remaining git views and the snapshot pipeline
(git_analysis.py lines 331-408, snapshot.py lines 173-291)

External `git` calls are modelled by an outcome value: either the parsed
stdout payload, or one of the three exception classes a
`subprocess.run(..., check=True, timeout=60)` call can raise —
`CalledProcessError` (non-zero exit), `TimeoutExpired`, or
`FileNotFoundError` (missing tool).  Python exception propagation is the
`Except` monad; an `except` clause corresponds to matching on the error. -/

/-- The exceptions a git invocation can raise. -/
inductive PyExc
  | calledProcessError
  | timeoutExpired
  | fileNotFound
deriving DecidableEq

/-- Outcome of one external git call with parsed-stdout payload `α`. -/
inductive GitOutcome (α : Type)
  | ok (a : α)
  | calledProcessError
  | timeoutExpired
  | fileNotFound

/-- `run_git_command`: returns stdout or raises. -/
def run_gitE {α : Type} : GitOutcome α → Except PyExc α
  | .ok a => .ok a
  | .calledProcessError => .error .calledProcessError
  | .timeoutExpired => .error .timeoutExpired
  | .fileNotFound => .error .fileNotFound

/-- `get_tracked_files`: a bare `run_git_command` call, nothing caught. -/
def get_tracked_filesE (o : GitOutcome (List Str)) : Except PyExc (List Str) :=
  run_gitE o

/-- `analyze_git_log`'s control flow: the log call is wrapped in
`try/except CalledProcessError: return {}` — only that exception
degrades to an empty result; a timeout or a missing tool propagates.
On success the tracked-file listing is fetched (unprotected) and the
stream is parsed. -/
def analyze_git_logE (logO : GitOutcome (List LogLine))
    (trackedO : GitOutcome (List Str)) : Except PyExc (List (Str × FileStats)) :=
  match run_gitE logO with
  | .error .calledProcessError => .ok []
  | .error e => .error e
  | .ok lines => do
    let tracked ← get_tracked_filesE trackedO
    pure (analyze_git_log lines tracked)

/-- `analyze_temporal_coupling`'s control flow, same exception shape. -/
def analyze_temporal_couplingE (nameO : GitOutcome (List (List Str)))
    (trackedO : GitOutcome (List Str)) (minC : ℕ) (minR : ℚ) :
    Except PyExc (List TemporalCoupling) :=
  match run_gitE nameO with
  | .error .calledProcessError => .ok []
  | .error e => .error e
  | .ok commits => do
    let tracked ← get_tracked_filesE trackedO
    pure (analyze_temporal_coupling tracked commits minC minR)

/-- Strict comparison on the hotspot sort key `(change_count, churn)`. -/
def ltCcChurn (a b : FileStats) : Bool :=
  decide (a.change_count < b.change_count) ||
    (decide (a.change_count = b.change_count) && decide (a.churn < b.churn))

/-- `get_hotspots`: files sorted by `(change_count, churn)` descending,
top 30 (the `to_dict` serialization is elided). -/
def get_hotspots (file_stats : List (Str × FileStats)) : List FileStats :=
  (stableSortBy ltCcChurn (file_stats.map (fun e => e.2))).take 30

/-- A knowledge-silo entry (`{"path": ..., "sole_author": ...}`). -/
structure KnowledgeSilo where
  path : Str
  sole_author : Str
deriving DecidableEq

/-- The bus-factor view. -/
structure BusFactor where
  total_authors : ℕ
  single_author_file_count : ℕ
  single_author_file_ratio : ℚ
  knowledge_silos : List KnowledgeSilo
deriving DecidableEq

/-- `calculate_bus_factor`: distinct authors, single-author files, their
repo ratio (the serialized 3-digit rounding is not modelled), and the
knowledge silos — single-author files with at least 3 changes, with
`sorted(authors)[0]` as sole author, sorted by change count descending,
top 20. -/
def calculate_bus_factor (file_stats : List (Str × FileStats)) : BusFactor :=
  let all_authors := firstDedup (file_stats.foldl (fun acc e => acc ++ e.2.authors) [])
  let single_author_files :=
    (file_stats.filter (fun e => decide (e.2.author_count = 1))).map (fun e => e.2.path)
  let knowledge_silos := (file_stats.filter
      (fun e => decide (e.2.author_count = 1) && decide (3 ≤ e.2.change_count))).map
    (fun e => KnowledgeSilo.mk e.2.path (pyMin e.2.authors))
  let siloLt := fun (a b : KnowledgeSilo) => decide
    ((((lookupA file_stats a.path).map FileStats.change_count).getD 0) <
      (((lookupA file_stats b.path).map FileStats.change_count).getD 0))
  { total_authors := all_authors.length
    single_author_file_count := single_author_files.length
    single_author_file_ratio := if file_stats.length = 0 then 0
      else (single_author_files.length : ℚ) / (file_stats.length : ℚ)
    knowledge_silos := (stableSortBy siloLt knowledge_silos).take 20 }

/-- The git-analysis slice of the snapshot. -/
structure GitData where
  hotspots : List FileStats
  temporal_coupling : List TemporalCoupling
  bus_factor : BusFactor
  files_analyzed : ℕ
deriving DecidableEq

/-- `analyze_repository`: run both git passes (each may raise), then the
derived views. -/
def analyze_repositoryE (logO : GitOutcome (List LogLine))
    (nameO : GitOutcome (List (List Str))) (trackedO : GitOutcome (List Str)) :
    Except PyExc GitData := do
  let file_stats ← analyze_git_logE logO trackedO
  let coupling ← analyze_temporal_couplingE nameO trackedO 3 (3/10)
  pure { hotspots := get_hotspots file_stats
         temporal_coupling := coupling
         bus_factor := calculate_bus_factor file_stats
         files_analyzed := file_stats.length }

/-- The assembled snapshot (metadata, complexity and debt slices are
supplied by pure collaborators and elided down to the complexity table
the priority aggregation consumes). -/
structure Snapshot where
  git_analysis : GitData
  dependencies : List (Str × List Str)
  priority_hotspots : List PriorityHotspot
deriving DecidableEq

/-- `generate_snapshot`: git analysis (exceptions propagate), the pure
dependency analysis of the file tree, and the priority aggregation. -/
def generate_snapshotE (logO : GitOutcome (List LogLine))
    (nameO : GitOutcome (List (List Str))) (trackedO : GitOutcome (List Str))
    (fs : List Str) (gitignore : Str → Bool) (rawImports : Str → List Str)
    (complexity : List (Str × ComplexityInfo)) : Except PyExc Snapshot := do
  let gd ← analyze_repositoryE logO nameO trackedO
  let deps := build_dependency_graph fs gitignore rawImports
  pure { git_analysis := gd
         dependencies := deps
         priority_hotspots := compute_priority_hotspots gd.hotspots complexity }

/-- `main`: a missing `.git` directory is a fatal usage error (exit 1);
otherwise any exception escaping `generate_snapshot` is caught by the
top-level `except Exception` and also yields exit 1 with no snapshot
written; success returns exit 0 with the snapshot. -/
def mainE (isRepo : Bool) (logO : GitOutcome (List LogLine))
    (nameO : GitOutcome (List (List Str))) (trackedO : GitOutcome (List Str))
    (fs : List Str) (gitignore : Str → Bool) (rawImports : Str → List Str)
    (complexity : List (Str × ComplexityInfo)) : ℤ × Option Snapshot :=
  if ¬ isRepo then (1, none)
  else
    match generate_snapshotE logO nameO trackedO fs gitignore rawImports complexity with
    | .ok s => (0, some s)
    | .error _ => (1, none)

/-- The fully degraded snapshot after a `CalledProcessError`: empty
hotspots, couplings, bus-factor view — with the dependency graph of the
`phantomFs` repository still fully populated. -/
def degradedSnapshot : Snapshot :=
  ⟨⟨[], [], ⟨0, 0, 0, []⟩, 0⟩, [(strL "a.ts", [strL "b.test.js"])], []⟩

/-- C2: the code's behaviour at the claim's inputs.  A timed-out log
retrieval in a valid repository does NOT degrade to empty history
slices — `analyze_git_log` catches only `CalledProcessError`, so
`subprocess.TimeoutExpired` propagates to `main`'s blanket handler and
the run exits 1 with no snapshot at all (first conjunct), contradicting
the claim; a non-zero git exit (`CalledProcessError`) does degrade as
described, with empty hotspot/coupling/bus-factor slices, a populated
dependency graph, and exit 0 (second conjunct); and a top-level
directory that is not a repository is a fatal usage error with exit 1
(third conjunct, the part of the claim that holds). -/
theorem timeout_aborts_run_instead_of_degrading :
    mainE true .timeoutExpired (.ok []) (.ok [strL "a.ts"]) phantomFs
        (fun _ => false) phantomRawImports [] = (1, none) ∧
      mainE true .calledProcessError .calledProcessError (.ok [strL "a.ts"]) phantomFs
        (fun _ => false) phantomRawImports [] = (0, some degradedSnapshot) ∧
      mainE false (.ok []) (.ok []) (.ok []) phantomFs
        (fun _ => false) phantomRawImports [] = (1, none) :=
  ⟨rfl, by decide, rfl⟩
